import Mathlib

/-!
Shallow embedding of `super_multiset_tableaux.py` (Super Multiset RSK).

Python classes are embedded as follows:
* `SuperValue` wraps one integer; we represent it directly as `Int`
  (its `__eq__` is value equality).  Its methods become the functions
  `svParity` (`SuperValue.parity`) and `svLt` (`SuperValue.__lt__`);
  `functools.total_ordering` derives `>` as `not (< or ==)`, embedded as
  `svGt`.
* `_parity` on raw integers becomes `rawParity`.
* `SuperMultiSet` becomes a structure with the two sorted fields
  `unbarred` and `barred`; construction from a raw list of integers is
  `SuperMultiSet.ofList` (Python `sorted` is a stable sort by `__lt__`;
  on integers, where equal elements are indistinguishable, any sort by
  the same order yields the same list, so we use `List.insertionSort`).
* `SuperMultiSetPartitionTableau` is a bare list of rows (`SMPT`);
  the recursive methods `insert` and `extract` are embedded with an
  explicit fuel argument, returning `none` on fuel exhaustion or on a
  Python `IndexError`.
* `SuperBiLetter` is a pair of multisets; `SuperBiWord.is_ordered` and
  `is_restricted` become `isOrdered` / `isRestricted`.
* `sRSK` / `_sRSK_inverse` become `sRSKFuel` / `sRSKInvGo`; the
  `TypeError` raised on an unordered/unrestricted biword (and the one
  raised on a non-corner extraction) is modelled by `Except.error ()`.
-/

/-- Python `SuperValue.parity`: `0` if `self._value > 0` else `1`. -/
def svParity (v : Int) : Nat := if 0 < v then 0 else 1

/-- Python `_parity` on a raw integer: `1` if `x < 0` else `0`. -/
def rawParity (v : Int) : Nat := if v < 0 then 1 else 0

/-- Python `SuperValue.__lt__`: barred (negative) values are larger than all
unbarred values; two barred values compare by reversed numeric order. -/
def svLt (a b : Int) : Bool :=
  if a < 0 then
    (if b < 0 then decide (b < a) else false)
  else
    (if b < 0 then true else decide (a < b))

/-- Python `>` on `SuperValue`, as derived by `functools.total_ordering`
from `__lt__` and `__eq__`: `not (self < other) and self != other`. -/
def svGt (a b : Int) : Bool := !svLt a b && decide (a ≠ b)

/-- Python `max` over a nonempty list of `SuperValue`s: keep the current
candidate unless the next element is `>` it.  (On `[]` Python raises; the
value returned here for `[]` is never used by guarded callers.) -/
def pyMaxV (l : List Int) : Int :=
  match l with
  | [] => 0
  | x :: xs => xs.foldl (fun b y => if svGt y b then y else b) x

/-- Order used to embed Python's `sorted` on `SuperValue`s:
`a ≤ b` iff `not (b < a)`. -/
def svLe (a b : Int) : Prop := svLt b a = false

instance : DecidableRel svLe := fun a b => by unfold svLe; infer_instance

/-- Python `SuperMultiSet`: the two fields `_unbarred` and `_barred`,
each a sorted list of (the integer payloads of) `SuperValue`s. -/
structure SuperMultiSet where
  unbarred : List Int
  barred : List Int
deriving DecidableEq, Repr

/-- Python `SuperMultiSet.__init__` from a raw list of integers: split by
`_parity` and sort each part by the `SuperValue` order. -/
def SuperMultiSet.ofList (array : List Int) : SuperMultiSet :=
  ⟨List.insertionSort svLe (array.filter (fun x => rawParity x == 0)),
   List.insertionSort svLe (array.filter (fun x => rawParity x == 1))⟩

/-- Python `SuperMultiSet.__iter__`: unbarred elements then barred ones. -/
def SuperMultiSet.elems (A : SuperMultiSet) : List Int := A.unbarred ++ A.barred

/-- Python `SuperMultiSet.__len__`. -/
def SuperMultiSet.len (A : SuperMultiSet) : Nat := A.unbarred.length + A.barred.length

/-- Python `SuperMultiSet.parity`: number of barred elements mod 2. -/
def SuperMultiSet.parity (A : SuperMultiSet) : Nat := A.barred.length % 2

/-- Structural worker for `SuperMultiSet.__lt__`: the first argument is
the remaining length `sa.length - i`, which decreases by one at each
recursive step of the Python method (so the kernel can evaluate it);
`msLtAux_unfold` recovers the Python-shaped recursion. -/
def msLtAuxGo : Nat → List Int → List Int → Nat → Bool
  | 0, _, sb, i => if sb.length - i = 0 then false else true
  | k + 1, sa, sb, i =>
    if sb.length - i = 0 then false
    else
      let smax := pyMaxV (sa.take (sa.length - i))
      let omax := pyMaxV (sb.take (sb.length - i))
      if svLt smax omax then true
      else if svGt smax omax then false
      else msLtAuxGo k sa sb (i + 1)

/-- Python `SuperMultiSet.__lt__`, with its explicit strip counter `i`:
compare the maxima of the first `len - i` elements of each iteration
sequence, recursing with `i + 1` on a tie (`svGt` is Python's derived
`>` on the compared maxima). -/
def msLtAux (sa sb : List Int) (i : Nat) : Bool :=
  msLtAuxGo (sa.length - i) sa sb i

/-- Python `SuperMultiSet.__lt__` (with the default `i = 0`). -/
def SuperMultiSet.lt (A B : SuperMultiSet) : Bool := msLtAux A.elems B.elems 0

/-- Python `>` on multisets (from `functools.total_ordering`). -/
def SuperMultiSet.gt (A B : SuperMultiSet) : Bool :=
  !(A.lt B || A == B)

/-- Python `>=` on multisets (from `functools.total_ordering`). -/
def SuperMultiSet.ge (A B : SuperMultiSet) : Bool := !A.lt B

/-- Python `<=` on multisets (from `functools.total_ordering`). -/
def SuperMultiSet.le (A B : SuperMultiSet) : Bool := A.lt B || A == B

/-- Python `max` over a nonempty list of `SuperMultiSet`s (uses `>`). -/
def pyMaxMS (l : List SuperMultiSet) : SuperMultiSet :=
  match l with
  | [] => ⟨[], []⟩
  | x :: xs => xs.foldl (fun b y => if SuperMultiSet.gt y b then y else b) x

/-- Boolean lexicographic comparison of two integer lists under `svLt`,
with an exhausted list counting as smaller.  `msLtAux` is proved equal to
`lexLtB` applied to the lists of prefix maxima (`peelSeq`). -/
def lexLtB : List Int → List Int → Bool
  | [], [] => false
  | [], _ :: _ => true
  | _ :: _, [] => false
  | a :: as, b :: bs =>
    if svLt a b then true else if svLt b a then false else lexLtB as bs

/-- The sequence of maxima of the shrinking prefixes inspected by
`msLtAux`: entry `i` is `max` of the first `length - i` elements. -/
def peelSeq (s : List Int) : List Int :=
  (List.range s.length).map (fun i => pyMaxV (s.take (s.length - i)))

/-- Python `SuperMultiSetPartitionTableau._tableau`: a list of rows of
multisets.  (The class constructor re-wraps every cell with
`SuperMultiSet(...)`, which on an existing multiset is a field copy, so
a tableau is fully described by its rows.) -/
abbrev SMPT := List (List SuperMultiSet)

/-- The list of row lengths of a tableau (its row-shape). -/
def rowLengths (T : SMPT) : List Nat := T.map List.length

/-- The dummy multiset used for guarded list accesses that embed Python
index expressions already known to be in range. -/
def dum : SuperMultiSet := ⟨[], []⟩

deriving instance DecidableEq for Except

/-- Bump test of `SuperMultiSetPartitionTableau.insert`:
`(parity == 0 and B > A) or (parity == 1 and B >= A)`. -/
def bumpCond (p : Nat) (B A : SuperMultiSet) : Bool :=
  (p == 0 && B.gt A) || (p == 1 && B.ge A)

/-- First position (and cell) in a row or column satisfying the bump
test, scanning left-to-right / top-to-bottom as the Python `for` loop. -/
def findBump (p : Nat) (A : SuperMultiSet) :
    List SuperMultiSet → Option (Nat × SuperMultiSet)
  | [] => none
  | B :: rest =>
    if bumpCond p B A then some (0, B)
    else (findBump p A rest).map (fun r => (r.1 + 1, r.2))

/-- The column list built by `insert`/`extract` at column `x`:
`[row[x] for row in self if x < len(row)]`.  Note that Python keeps no
record of the original row numbers; the position in this list is later
used as a row index. -/
def colCells (T : SMPT) (x : Nat) : List SuperMultiSet :=
  (T.filter (fun r => x < r.length)).map (fun r => r.getD x dum)

/-- Python `SuperMultiSetPartitionTableau.insert`, with fuel.  The result
is the updated tableau together with the returned `[x, y]` coordinate;
`none` models fuel exhaustion or a Python `IndexError` (row index past
the end in row mode, or the misaligned cell write
`self._tableau[y][x] = A` in column mode faulting). -/
def insertFuel : Nat → SMPT → SuperMultiSet → Nat → Nat →
    Option (SMPT × Nat × Nat)
  | 0, _, _, _, _ => none
  | fuel + 1, T, A, p, index =>
    if T.length = 0 then some ([[A]], 0, 0)
    else if p = A.parity then
      -- row insertion at row `index`
      let y := index
      if y = T.length then some (T ++ [[A]], 0, y)
      else if y < T.length then
        let row := T.getD y []
        match findBump p A row with
        | some (x, B) =>
          let T1 := T.set y (row.set x A)
          let newIndex := if B.parity = p then y + 1 else x + 1
          insertFuel fuel T1 B p newIndex
        | none => some (T.set y (row ++ [A]), row.length, y)
      else none
    else
      -- column insertion at column `index`
      let x := index
      let row0 := T.getD 0 []
      if x = row0.length then some (T.set 0 (row0 ++ [A]), row0.length, 0)
      else
        let col := colCells T x
        match findBump p A col with
        | some (y, B) =>
          if x < (T.getD y []).length then
            let T1 := T.set y ((T.getD y []).set x A)
            let newIndex := if B.parity = p then y + 1 else x + 1
            insertFuel fuel T1 B p newIndex
          else none
        | none =>
          let y := col.length
          if y < T.length then some (T.set y ((T.getD y []) ++ [A]), x, y)
          else some (T ++ [[A]], x, y)

/-- The structural removal performed by a terminal `extract` at a valid
corner: shorten row `y` by one, and if it became empty drop the last row
of the tableau (Python `self._tableau = self._tableau[0:-1]`). -/
def removeCorner (T : SMPT) (y : Nat) : SMPT :=
  let T1 := T.set y ((T.getD y []).dropLast)
  if (T1.getD y []).length = 0 then T1.dropLast else T1

/-- Un-bump test of `extract`:
`(parity == 0 and c < A) or (parity == 1 and c <= A)`. -/
def extCond (p : Nat) (C A : SuperMultiSet) : Bool :=
  (p == 0 && C.lt A) || (p == 1 && C.le A)

/-- Rightmost index of `row` whose cell satisfies `cond` (the Python
loops in `extract` scan `x0 = len(row)-i-1` for increasing `i`). -/
def findRight (cond : SuperMultiSet → Bool) (row : List SuperMultiSet) :
    Option Nat :=
  (List.range row.length).reverse.find? (fun j => cond (row.getD j dum))

/-- Python `SuperMultiSetPartitionTableau.extract`, with fuel.  The
result distinguishes the `TypeError` raised on a non-removable corner
(`Except.error ()`) from a normal return of the chain value `A`
(`Except.ok (T, some A)`) and from the implicit `return None` when no
qualifying predecessor exists (`Except.ok (T, none)`); the outer `none`
models fuel exhaustion or a Python `IndexError` on the initial cell
read. -/
def extractFuel : Nat → SMPT → Nat → Nat → Nat → Option SuperMultiSet →
    Option (Except Unit (SMPT × Option SuperMultiSet))
  | 0, _, _, _, _, _ => none
  | fuel + 1, T, x, y, p, value =>
    if y < T.length ∧ x < (T.getD y []).length then
      let A := (T.getD y []).getD x dum
      if value = none ∧ ((T.getD y []).length ≠ x + 1 ∨
          (y + 1 < T.length ∧ (T.getD y []).length ≤ (T.getD (y + 1) []).length)) then
        some (Except.error ())
      else
        let T1 := match value with
          | none => removeCorner T y
          | some v => T.set y ((T.getD y []).set x v)
        if (p = A.parity ∧ y = 0) ∨ (p ≠ A.parity ∧ x = 0) then
          some (Except.ok (T1, some A))
        else if p = A.parity then
          let row := T1.getD (y - 1) []
          match findRight (fun C => extCond p C A) row with
          | some x0 => extractFuel fuel T1 x0 (y - 1) p (some A)
          | none => some (Except.ok (T1, none))
        else
          let col := colCells T1 (x - 1)
          match findRight (fun C => extCond p C A) col with
          | some y0 => extractFuel fuel T1 (x - 1) y0 p (some A)
          | none => some (Except.ok (T1, none))
    else none

/-- Python `SuperBiLetter`: a pair (top, bottom) of multisets. -/
abbrev SuperBiLetter := SuperMultiSet × SuperMultiSet

/-- Python `SuperBiLetter.__lt__`. -/
def blLt (u v : SuperBiLetter) : Bool :=
  if u.1.lt v.1 then true
  else if u.1 ≠ v.1 then false
  else if u.2.parity ≠ v.2.parity then (u.2.parity == 1 && v.2.parity == 0)
  else if u.2.parity == 0 && v.2.parity == 0 then u.2.lt v.2
  else if u.2.parity == 1 && v.2.parity == 1 then u.2.gt v.2
  else false

/-- Stable sort by `blLt`, embedding Python `sorted` on biletters: each
element is inserted after all earlier elements it is not `<` than. -/
def insFromRight (a : SuperBiLetter) :
    List SuperBiLetter → List SuperBiLetter
  | [] => [a]
  | b :: bs => if blLt a b then a :: b :: bs else b :: insFromRight a bs

/-- Stable sort by `blLt` (left fold of `insFromRight`). -/
def pySortBL (l : List SuperBiLetter) : List SuperBiLetter :=
  l.foldl (fun acc a => insFromRight a acc) []

/-- Python `SuperBiWord.is_ordered`: `sorted(self._array) == self._array`. -/
def isOrdered (arr : List SuperBiLetter) : Bool := pySortBL arr == arr

/-- Python `SuperBiWord.is_restricted`: no biletter of odd top+bottom
parity sum occurs more than once. -/
def isRestricted (arr : List SuperBiLetter) : Bool :=
  arr.all (fun w =>
    !(1 < arr.count w && (w.1.parity + w.2.parity) == 1))

/-- Conversion of a raw biword (a list of pairs of integer lists) into
biletters, as performed by `SuperBiWord.__init__`. -/
def toBL (bw : List (List Int × List Int)) : List SuperBiLetter :=
  bw.map (fun w => (SuperMultiSet.ofList w.1, SuperMultiSet.ofList w.2))

/-- The insertion loop of `sRSK`: insert each bottom multiset into `P`
with the top multiset's parity as mode, and record the top multiset in
`Q` at the returned row. -/
def sRSKGo (fuel : Nat) : SMPT → SMPT → List SuperBiLetter →
    Option (SMPT × SMPT)
  | P, Q, [] => some (P, Q)
  | P, Q, w :: rest =>
    match insertFuel fuel P w.2 w.1.parity 0 with
    | none => none
    | some (P1, _, y) =>
      let Q1 := if y < Q.length then Q.set y ((Q.getD y []) ++ [w.1])
                else Q ++ [[w.1]]
      sRSKGo fuel P1 Q1 rest

/-- Python `sRSK`: validate the biword, then run the insertion loop.
`some (Except.error ())` is the `TypeError` raised on an unordered or
unrestricted biword; `none` is fuel exhaustion inside an insertion. -/
def sRSKFuel (fuel : Nat) (bw : List (List Int × List Int)) :
    Option (Except Unit (SMPT × SMPT)) :=
  let w := toBL bw
  if !isOrdered w || !isRestricted w then some (Except.error ())
  else (sRSKGo fuel [] [] w).map Except.ok

/-- The scan of `_sRSK_inverse` for the first occurrence of the maximal
`Q`-cell: rows from top (`y = len-1`) down, cells right-to-left. -/
def findQ (Q : SMPT) (q : SuperMultiSet) : Option (Nat × Nat) :=
  (List.range Q.length).reverse.findSome? (fun y =>
    ((List.range (Q.getD y []).length).reverse.find?
        (fun x => (Q.getD y []).getD x dum == q)).map (fun x => (x, y)))

/-- Python `_sRSK_inverse`, with fuel: repeatedly extract at the maximal
cell of `Q` and prepend the recovered biletter.  `none` models fuel
exhaustion or any Python exception along the way (`ValueError` from
`max([])`, a propagated `TypeError` from `extract`, or the eventual
crash on a `None` extraction result). -/
def sRSKInvGo : Nat → SMPT → SMPT →
    Option (List (SuperMultiSet × SuperMultiSet))
  | 0, _, _ => none
  | fuel + 1, P, Q =>
    if P.length = 0 then some []
    else if Q.length = 0 || Q.any (fun row => row.length == 0) then none
    else
      let q := pyMaxMS (Q.map pyMaxMS)
      match findQ Q q with
      | none => none
      | some (x, y) =>
        match extractFuel (fuel + 1) P x y q.parity none with
        | some (Except.ok (P1, some p)) =>
          let row := Q.getD y []
          let Q1 := if row.length = 1 then Q.dropLast else Q.set y row.dropLast
          (sRSKInvGo fuel P1 Q1).map (fun rest => rest ++ [(q, p)])
        | _ => none

/-- Short constructor name for multisets built from raw integer lists. -/
def ms (l : List Int) : SuperMultiSet := SuperMultiSet.ofList l

/-- The effect of one insertion on a row-shape: one more cell in row `y`,
or one new singleton row when `y` is the current row count. -/
def growAt (s : List Nat) (y : Nat) : List Nat :=
  if y < s.length then s.set y (s.getD y 0 + 1) else s ++ [1]

/-- Decidable check that an integer list is sorted for the `SuperValue`
order (no adjacent descent). -/
def sortedV : List Int → Bool
  | [] => true
  | [_] => true
  | a :: b :: r => !svLt b a && sortedV (b :: r)

/-- A multiset value is well formed when it could have been produced by
`SuperMultiSet.ofList`: each part holds only values of its parity and is
sorted. -/
def wfMS (A : SuperMultiSet) : Bool :=
  A.unbarred.all (fun x => rawParity x == 0) &&
  A.barred.all (fun x => rawParity x == 1) &&
  sortedV A.unbarred && sortedV A.barred

/-- All cells of a tableau are well-formed multisets. -/
def wfTab (T : SMPT) : Bool := T.all (fun row => row.all wfMS)

/-- Decidable check that a list of naturals is weakly decreasing. -/
def decLens : List Nat → Bool
  | [] => true
  | [_] => true
  | a :: b :: r => decide (b ≤ a) && decLens (b :: r)

/-- A tableau has partition row-shape: weakly decreasing row lengths. -/
def partShaped (T : SMPT) : Bool := decLens (rowLengths T)

/-- The ordered, restricted biword on which the implemented round trip
fails: the two biletters with top `{2}` come back in swapped order. -/
def bwC1 : List (List Int × List Int) := [([1], [1]), ([2], [-1]), ([2], [1])]

/-- Value of the insertion tableau `P` computed by `sRSK` on `bwC1`. -/
def pC1 : SMPT := [[ms [1], ms [1]], [ms [-1]]]

/-- Value of the recording tableau `Q` computed by `sRSK` on `bwC1`. -/
def qC1 : SMPT := [[ms [1], ms [2]], [ms [2]]]

/-- What `_sRSK_inverse` actually returns on `(pC1, qC1)`: the letters of
`bwC1` with the last two in the wrong order. -/
def outC1 : List (SuperMultiSet × SuperMultiSet) :=
  [(ms [1], ms [1]), (ms [2], ms [1]), (ms [2], ms [-1])]

/-- A well-formed partition-shaped tableau on which `insert` returns a
coordinate outside the resulting shape. -/
def tabC7 : SMPT := [[ms [1], ms [1], ms [-1], ms [-1]], [ms [2]]]

/-- The tableau produced by inserting `{1}` with parity 0 into `tabC7`:
the bumped `{-1}` is appended to row 1 (length 2) while the returned
coordinate is `(3, 1)`. -/
def tabC7out : SMPT := [[ms [1], ms [1], ms [1], ms [-1]], [ms [2], ms [-1]]]

/-- The tableau of the corner-rejection example of the specification. -/
def tabC8 : SMPT := [[ms [1], ms [1], ms [2]], [ms [-1]], [ms [-2]]]

/-- A biword repeating one biletter of odd parity sum: it is ordered but
not restricted, so `sRSK` must raise. -/
def bwC9 : List (List Int × List Int) := [([1], [-1]), ([1], [-1])]

/-- Number of tableau cells satisfying the bump test against the value
currently carried by the insertion chain; the primary component of the
termination measure of `insert`. -/
def countBump (p : Nat) (A : SuperMultiSet) (T : SMPT) : Nat :=
  (T.map (fun row => row.countP (fun C => bumpCond p C A))).sum

/-- Upper bound for every row or column index reachable during one
insertion chain (the shape is only changed by the terminal step). -/
def insBound (T : SMPT) : Nat := T.length + (T.getD 0 []).length + 2

/-- Termination measure for the insertion chain: lexicographic pair
`(countBump, insBound - index)` packed into one natural number. -/
def insMeasure (T : SMPT) (A : SuperMultiSet) (p i : Nat) : Nat :=
  countBump p A T * (insBound T + 1) + (insBound T - i)

/-! ## Order lemmas for the `SuperValue` comparison -/

theorem svLt_iff (a b : Int) : svLt a b = true ↔
    (0 ≤ a ∧ b < 0) ∨ (0 ≤ a ∧ 0 ≤ b ∧ a < b) ∨ (a < 0 ∧ b < 0 ∧ b < a) := by
  unfold svLt
  split_ifs <;> simp <;> omega

theorem svLt_false_iff (a b : Int) : svLt a b = false ↔
    ¬((0 ≤ a ∧ b < 0) ∨ (0 ≤ a ∧ 0 ≤ b ∧ a < b) ∨ (a < 0 ∧ b < 0 ∧ b < a)) := by
  rw [← svLt_iff]
  exact ⟨fun h => by simp [h], fun h => by simpa using h⟩

theorem svLt_irrefl (a : Int) : svLt a a = false := by
  rw [svLt_false_iff]; omega

theorem svLt_asymm {a b : Int} (h : svLt a b = true) : svLt b a = false := by
  rw [svLt_iff] at h; rw [svLt_false_iff]; omega

theorem svLt_trans {a b c : Int} (h1 : svLt a b = true) (h2 : svLt b c = true) :
    svLt a c = true := by
  rw [svLt_iff] at h1 h2 ⊢; omega

theorem svLt_connex {a b : Int} (h : svLt a b = false) (h' : svLt b a = false) :
    a = b := by
  rw [svLt_false_iff] at h h'; omega

theorem svGt_eq (a b : Int) : svGt a b = svLt b a := by
  unfold svGt
  rcases h1 : svLt a b with _ | _ <;> rcases h2 : svLt b a with _ | _ <;> simp
  · exact svLt_connex h1 h2
  · intro h; subst h; rw [svLt_irrefl] at h2; exact Bool.noConfusion h2
  · rw [svLt_asymm h1] at h2; exact Bool.noConfusion h2

/-! ## The lexicographic view of the multiset comparison -/

theorem lexLtB_irrefl : ∀ l, lexLtB l l = false
  | [] => rfl
  | a :: as => by simp [lexLtB, svLt_irrefl, lexLtB_irrefl as]

theorem bool_false {b : Bool} (h : ¬b = true) : b = false := by
  cases b
  · rfl
  · exact absurd rfl h

theorem lexLtB_asymm : ∀ l m, lexLtB l m = true → lexLtB m l = false
  | [], m => by cases m <;> simp [lexLtB]
  | _ :: _, [] => by simp [lexLtB]
  | a :: as, b :: bs => by
    simp only [lexLtB]
    by_cases hab : svLt a b = true
    · intro _
      rw [svLt_asymm hab]
      simp [hab]
    · rw [if_neg hab]
      by_cases hba : svLt b a = true
      · simp [hba]
      · rw [if_neg hba, if_neg hba, if_neg hab]
        exact lexLtB_asymm as bs

theorem lexLtB_conn : ∀ l m, lexLtB l m = false → lexLtB m l = false → l = m
  | [], [] => by simp
  | [], _ :: _ => by simp [lexLtB]
  | _ :: _, [] => by simp [lexLtB]
  | a :: as, b :: bs => by
    simp only [lexLtB]
    by_cases hab : svLt a b = true
    · simp [hab]
    · rw [if_neg hab]
      by_cases hba : svLt b a = true
      · simp [hba]
      · rw [if_neg hba, if_neg hba, if_neg hab]
        intro h1 h2
        rw [svLt_connex (bool_false hab) (bool_false hba),
          lexLtB_conn as bs h1 h2]

theorem lexLtB_trans : ∀ l m k, lexLtB l m = true → lexLtB m k = true →
    lexLtB l k = true
  | [], m, k => by
    cases m with
    | nil => simp [lexLtB]
    | cons b bs =>
      cases k with
      | nil => simp [lexLtB]
      | cons c cs => simp [lexLtB]
  | a :: as, [], k => by simp [lexLtB]
  | a :: as, b :: bs, [] => by simp [lexLtB]
  | a :: as, b :: bs, c :: cs => by
    simp only [lexLtB]
    by_cases hab : svLt a b = true
    · by_cases hbc : svLt b c = true
      · simp [svLt_trans hab hbc]
      · rw [if_neg hbc]
        by_cases hcb : svLt c b = true
        · simp only [if_pos hcb]
          intro _ h
          exact absurd h (by simp)
        · rw [if_neg hcb]
          have hbc' := svLt_connex (bool_false hbc) (bool_false hcb)
          subst hbc'
          simp [hab]
    · rw [if_neg hab]
      by_cases hba : svLt b a = true
      · simp [hba]
      · rw [if_neg hba]
        have hab' := svLt_connex (bool_false hab) (bool_false hba)
        subst hab'
        by_cases hbc : svLt a c = true
        · simp [hbc]
        · rw [if_neg hbc, if_neg hbc]
          by_cases hcb : svLt c a = true
          · simp only [if_pos hcb]
            intro _ h
            exact absurd h (by simp)
          · rw [if_neg hcb, if_neg hcb]
            exact lexLtB_trans as bs cs

theorem peelSeq_length (s : List Int) : (peelSeq s).length = s.length := by
  simp [peelSeq]

theorem peelSeq_drop_nil (s : List Int) (i : Nat) (h : s.length ≤ i) :
    (peelSeq s).drop i = [] := by
  apply List.drop_eq_nil_of_le
  rw [peelSeq_length]; exact h

theorem peelSeq_drop (s : List Int) (i : Nat) (h : i < s.length) :
    (peelSeq s).drop i =
      pyMaxV (s.take (s.length - i)) :: (peelSeq s).drop (i + 1) := by
  have h' : i < (peelSeq s).length := by rw [peelSeq_length]; exact h
  rw [List.drop_eq_getElem_cons h']
  congr 1
  simp [peelSeq]

theorem msLtAux_unfold (sa sb : List Int) (i : Nat) :
    msLtAux sa sb i =
      if sa.length - i = 0 then
        (if sb.length - i = 0 then false else true)
      else if sb.length - i = 0 then false
      else
        if svLt (pyMaxV (sa.take (sa.length - i)))
            (pyMaxV (sb.take (sb.length - i))) then true
        else if svGt (pyMaxV (sa.take (sa.length - i)))
            (pyMaxV (sb.take (sb.length - i))) then false
        else msLtAux sa sb (i + 1) := by
  rw [msLtAux]
  cases hk : sa.length - i with
  | zero =>
    rw [if_pos rfl]
    rfl
  | succ k =>
    rw [if_neg (by omega)]
    show (if sb.length - i = 0 then false
      else
        if svLt (pyMaxV (sa.take (sa.length - i)))
            (pyMaxV (sb.take (sb.length - i))) then true
        else if svGt (pyMaxV (sa.take (sa.length - i)))
            (pyMaxV (sb.take (sb.length - i))) then false
        else msLtAuxGo k sa sb (i + 1)) = _
    rw [msLtAux, show sa.length - (i + 1) = k from by omega, hk]

theorem msLtAux_eq_lex (sa sb : List Int) (i : Nat) :
    msLtAux sa sb i = lexLtB ((peelSeq sa).drop i) ((peelSeq sb).drop i) := by
  rw [msLtAux_unfold]
  by_cases h1 : sa.length - i = 0
  · rw [if_pos h1, peelSeq_drop_nil sa i (by omega)]
    by_cases h2 : sb.length - i = 0
    · rw [if_pos h2, peelSeq_drop_nil sb i (by omega)]; rfl
    · rw [if_neg h2, peelSeq_drop sb i (by omega)]; rfl
  · rw [if_neg h1]
    by_cases h2 : sb.length - i = 0
    · rw [if_pos h2, peelSeq_drop_nil sb i (by omega), peelSeq_drop sa i (by omega)]
      rfl
    · rw [if_neg h2, peelSeq_drop sa i (by omega), peelSeq_drop sb i (by omega)]
      simp only [lexLtB, svGt_eq]
      split_ifs <;> first
        | rfl
        | exact msLtAux_eq_lex sa sb (i + 1)
termination_by sa.length - i
decreasing_by omega

theorem msLt_eq_lex (A B : SuperMultiSet) :
    A.lt B = lexLtB (peelSeq A.elems) (peelSeq B.elems) := by
  rw [SuperMultiSet.lt, msLtAux_eq_lex]
  rfl

/-! ## Claim theorems on the value and multiset orders -/

/-- C2: the `SuperValue` comparison is a strict total order on the
integers: trichotomy on distinct values, irreflexivity, transitivity;
every unbarred (non-negative) value is below every barred (negative)
value; and in particular `1 < -1` and `-1 < -3` in this order. -/
theorem supervalue_strict_total_order :
    (∀ a b : Int, a ≠ b →
      (svLt a b = true ∧ svLt b a = false) ∨
      (svLt a b = false ∧ svLt b a = true)) ∧
    (∀ a : Int, svLt a a = false) ∧
    (∀ a b c : Int, svLt a b = true → svLt b c = true → svLt a c = true) ∧
    (∀ a b : Int, 0 ≤ a → b < 0 → svLt a b = true) ∧
    svLt 1 (-1) = true ∧ svLt (-1) (-3) = true := by
  refine ⟨fun a b hab => ?_, svLt_irrefl, fun _ _ _ => svLt_trans, ?_, by decide, by decide⟩
  · by_cases h1 : svLt a b = true
    · exact Or.inl ⟨h1, svLt_asymm h1⟩
    · by_cases h2 : svLt b a = true
      · exact Or.inr ⟨bool_false h1, h2⟩
      · exact absurd (svLt_connex (bool_false h1) (bool_false h2)) hab
  · intro a b ha hb
    rw [svLt_iff]; omega

/-- Witness for C2 at concrete inputs. -/
theorem supervalue_strict_total_order_witness :
    ((svLt 2 5 = true ∧ svLt 5 2 = false) ∨
      (svLt 2 5 = false ∧ svLt 5 2 = true)) ∧
    svLt 4 (-7) = true ∧ svLt 9 (-2) = true := by
  refine ⟨supervalue_strict_total_order.1 2 5 (by decide), ?_, ?_⟩
  · exact supervalue_strict_total_order.2.2.2.1 4 (-7) (by decide) (by decide)
  · exact supervalue_strict_total_order.2.2.2.1 9 (-2) (by decide) (by decide)

/-- C3 (code bug): `SuperValue(0).parity()` returns 1 because the code
tests `self._value > 0`, while `_parity(0)` returns 0 (it tests
`x < 0`); the claim (and the code's own docstrings: negative values are
the barred ones) requires parity 0 at value 0. -/
theorem supervalue_parity_zero_divergence :
    svParity 0 = 1 ∧ rawParity 0 = 0 := by
  exact ⟨rfl, rfl⟩

/-- C4 (counterexample): the claim asserts `SignedValue(-3) < SignedValue(-1)`
(larger magnitude first among barred values), but the code orders barred
values with smaller magnitude first: `svLt (-3) (-1)` is `false` and
`svLt (-1) (-3)` is `true`. -/
theorem supervalue_barred_order_counterexample :
    svLt (-3) (-1) = false ∧ svLt (-1) (-3) = true := by
  exact ⟨rfl, rfl⟩

/-- C4 (amended): among barred (negative) values the one of smaller
magnitude sorts first: for negative `a`, `b` with `|a| > |b|` (i.e.
`a < b < 0`), `SignedValue(b) < SignedValue(a)` and not conversely; the
full order is the single chain `1 < 2 < 3 < … < -1 < -2 < -3` (barred
values in increasing magnitude). -/
theorem supervalue_barred_order_amended :
    (∀ a b : Int, a < 0 → b < 0 → a < b →
      svLt b a = true ∧ svLt a b = false) ∧
    svLt 1 2 = true ∧ svLt 2 3 = true ∧ svLt 3 (-1) = true ∧
    svLt (-1) (-2) = true ∧ svLt (-2) (-3) = true := by
  refine ⟨fun a b ha hb hab => ⟨?_, ?_⟩, by decide, by decide, by decide,
    by decide, by decide⟩
  · rw [svLt_iff]; omega
  · rw [svLt_false_iff]; omega

/-- Witness for C4's amended theorem at a concrete input. -/
theorem supervalue_barred_order_amended_witness :
    svLt (-1) (-3) = true ∧ svLt (-3) (-1) = false :=
  supervalue_barred_order_amended.1 (-3) (-1) (by decide) (by decide) (by decide)

/-- C5: the multiset comparison is antisymmetric and irreflexive with
respect to equality: `A < B` and `B < A` never both hold, and equal
multisets are incomparable. -/
theorem multiset_lt_antisymm :
    ∀ A B : SuperMultiSet,
      (A.lt B && B.lt A) = false ∧ (A = B → A.lt B = false) := by
  intro A B
  constructor
  · rcases h1 : A.lt B with _ | _ <;> simp
    rw [msLt_eq_lex] at h1 ⊢
    exact lexLtB_asymm _ _ h1
  · rintro rfl
    rw [msLt_eq_lex]
    exact lexLtB_irrefl _

/-- Witness for C5 at a concrete input. -/
theorem multiset_lt_antisymm_witness :
    ((ms [1, -2]).lt (ms [2]) && (ms [2]).lt (ms [1, -2])) = false ∧
      (ms [1, -2]).lt (ms [1, -2]) = false :=
  ⟨(multiset_lt_antisymm (ms [1, -2]) (ms [2])).1,
   (multiset_lt_antisymm (ms [1, -2]) (ms [1, -2])).2 rfl⟩

/-! ## Sortedness of constructed multisets -/

instance : IsTotal Int svLe where
  total a b := by
    unfold svLe
    by_cases h : svLt b a = true
    · exact Or.inr (svLt_asymm h)
    · exact Or.inl (bool_false h)

instance : IsTrans Int svLe where
  trans a b c h1 h2 := by
    unfold svLe at h1 h2 ⊢
    by_cases hca : svLt c a = true
    · exfalso
      by_cases hbc : svLt b c = true
      · rw [svLt_trans hbc hca] at h1; exact Bool.noConfusion h1
      · have : b = c := svLt_connex (bool_false hbc) h2
        subst this
        rw [hca] at h1; exact Bool.noConfusion h1
    · exact bool_false hca

theorem sortedV_pairwise : ∀ s, sortedV s = true → List.Pairwise svLe s
  | [] , _ => List.Pairwise.nil
  | [a], _ => by simp
  | a :: b :: r, h => by
    rw [sortedV] at h
    simp only [Bool.and_eq_true, Bool.not_eq_true'] at h
    have tail := sortedV_pairwise (b :: r) h.2
    refine List.Pairwise.cons ?_ tail
    intro x hx
    rcases List.mem_cons.mp hx with rfl | hx
    · exact h.1
    · exact Trans.trans (show svLe a b from h.1)
        (List.rel_of_pairwise_cons tail hx)

theorem pairwise_sortedV : ∀ s, List.Pairwise svLe s → sortedV s = true
  | [] , _ => rfl
  | [_], _ => rfl
  | a :: b :: r, h => by
    rw [sortedV]
    simp only [Bool.and_eq_true, Bool.not_eq_true']
    exact ⟨List.rel_of_pairwise_cons h (List.mem_cons_self b r),
      pairwise_sortedV (b :: r) h.of_cons⟩

theorem ofList_unbarred_mem {l : List Int} {x : Int}
    (h : x ∈ (SuperMultiSet.ofList l).unbarred) : 0 ≤ x := by
  rw [SuperMultiSet.ofList] at h
  have := (List.perm_insertionSort svLe _).mem_iff.mp h
  have := List.of_mem_filter this
  simp only [rawParity] at this
  split_ifs at this with hx
  · exact absurd this (by decide)
  · omega

theorem ofList_barred_mem {l : List Int} {x : Int}
    (h : x ∈ (SuperMultiSet.ofList l).barred) : x < 0 := by
  rw [SuperMultiSet.ofList] at h
  have := (List.perm_insertionSort svLe _).mem_iff.mp h
  have := List.of_mem_filter this
  simp only [rawParity] at this
  split_ifs at this with hx
  · exact hx
  · exact absurd this (by decide)

theorem unbarred_barred_le {x y : Int} (hx : 0 ≤ x) (hy : y < 0) : svLe x y := by
  show svLt y x = false
  rw [svLt_false_iff]; omega

theorem ofList_elems_pairwise (l : List Int) :
    List.Pairwise svLe (SuperMultiSet.ofList l).elems := by
  rw [SuperMultiSet.elems, List.pairwise_append]
  refine ⟨List.sorted_insertionSort svLe _, List.sorted_insertionSort svLe _,
    fun x hx y hy => ?_⟩
  exact unbarred_barred_le (ofList_unbarred_mem hx) (ofList_barred_mem hy)

theorem pyMaxV_sorted : ∀ (a : Int) (l : List Int),
    List.Pairwise svLe (a :: l) → pyMaxV (a :: l) = (a :: l).getLast (by simp)
  | a, [], _ => rfl
  | a, b :: r, h => by
    have hab : svLt b a = false := List.rel_of_pairwise_cons h (List.mem_cons_self b r)
    have step : (if svGt b a then b else a) = b := by
      by_cases h1 : svLt a b = true
      · rw [if_pos (by rw [svGt_eq]; exact h1)]
      · rw [svLt_connex (bool_false h1) hab]
        split_ifs <;> rfl
    have : pyMaxV (a :: b :: r) = pyMaxV (b :: r) := by
      show List.foldl (fun u y => if svGt y u then y else u) (if svGt b a then b else a) r =
        List.foldl (fun u y => if svGt y u then y else u) b r
      rw [step]
    rw [this, pyMaxV_sorted b r h.of_cons]
    rfl

/-- A Python-max over a sorted nonempty list is its last element, stated
with `getD` for convenience. -/
theorem pyMaxV_sorted_getD (s : List Int) (h : List.Pairwise svLe s)
    (hne : s ≠ []) : pyMaxV s = s.getD (s.length - 1) 0 := by
  match s, hne with
  | a :: l, _ =>
    rw [pyMaxV_sorted a l h, List.getLast_eq_getElem,
      List.getD_eq_getElem _ _ (by simp)]

theorem elems_length (A : SuperMultiSet) : A.elems.length = A.len := by
  simp [SuperMultiSet.elems, SuperMultiSet.len]

/-- C10: iterating a constructed `SignedMultiset` yields its elements in
ascending `SuperValue` order, and consequently the maximum of the first
`len - i` elements of the iteration sequence is the `(i+1)`-th largest
element (the element at position `len - 1 - i` of the ascending
sequence). -/
theorem multiset_iter_ascending :
    ∀ l : List Int, List.Pairwise svLe (ms l).elems ∧
      ∀ i, i < (ms l).len →
        pyMaxV ((ms l).elems.take ((ms l).len - i)) =
          (ms l).elems.getD ((ms l).len - 1 - i) 0 := by
  intro l
  refine ⟨ofList_elems_pairwise l, fun i hi => ?_⟩
  have hlen : (ms l).elems.length = (ms l).len := elems_length _
  have hk1 : 1 ≤ (ms l).len - i := by omega
  have hkle : (ms l).len - i ≤ (ms l).elems.length := by omega
  have hsort : List.Pairwise svLe ((ms l).elems.take ((ms l).len - i)) :=
    (ofList_elems_pairwise l).sublist (List.take_sublist _ _)
  have hlen2 : ((ms l).elems.take ((ms l).len - i)).length = (ms l).len - i := by
    rw [List.length_take]; omega
  have hne : (ms l).elems.take ((ms l).len - i) ≠ [] :=
    List.ne_nil_of_length_pos (by rw [hlen2]; omega)
  rw [pyMaxV_sorted_getD _ hsort hne, hlen2]
  rw [List.getD_eq_getElem _ _ (by omega), List.getD_eq_getElem _ _ (by omega),
    List.getElem_take]
  simp only [show (ms l).len - i - 1 = (ms l).len - 1 - i from by omega]

/-- Witness for C10 at a concrete input. -/
theorem multiset_iter_ascending_witness :
    pyMaxV ((ms [1, -1, 2]).elems.take ((ms [1, -1, 2]).len - 1)) =
      (ms [1, -1, 2]).elems.getD ((ms [1, -1, 2]).len - 1 - 1) 0 :=
  (multiset_iter_ascending [1, -1, 2]).2 1 (by decide)

/-! ## Canonical multisets and derived order facts -/

theorem wfMS_elems_pairwise {A : SuperMultiSet} (h : wfMS A = true) :
    List.Pairwise svLe A.elems := by
  rw [wfMS] at h
  simp only [Bool.and_eq_true, List.all_eq_true] at h
  obtain ⟨⟨⟨hu, hb⟩, hsu⟩, hsb⟩ := h
  rw [SuperMultiSet.elems, List.pairwise_append]
  refine ⟨sortedV_pairwise _ hsu, sortedV_pairwise _ hsb, fun x hx y hy => ?_⟩
  have hx0 : 0 ≤ x := by
    have := hu x hx
    simp only [rawParity, beq_iff_eq] at this
    split_ifs at this
    omega
  have hy0 : y < 0 := by
    have := hb y hy
    simp only [rawParity, beq_iff_eq] at this
    split_ifs at this with h'
    exact h'
  exact unbarred_barred_le hx0 hy0

theorem peelSeq_of_sorted {s : List Int} (h : List.Pairwise svLe s) :
    peelSeq s = s.reverse := by
  apply List.ext_getElem
  · rw [peelSeq_length, List.length_reverse]
  · intro i h1 h2
    have hi : i < s.length := by rwa [peelSeq_length] at h1
    have hget : (peelSeq s)[i] = pyMaxV (s.take (s.length - i)) := by
      simp [peelSeq]
    rw [hget, List.getElem_reverse]
    have hsort : List.Pairwise svLe (s.take (s.length - i)) :=
      h.sublist (List.take_sublist _ _)
    have hlen2 : (s.take (s.length - i)).length = s.length - i := by
      rw [List.length_take]; omega
    have hne : s.take (s.length - i) ≠ [] :=
      List.ne_nil_of_length_pos (by rw [hlen2]; omega)
    rw [pyMaxV_sorted_getD _ hsort hne, hlen2,
      List.getD_eq_getElem _ _ (by omega), List.getElem_take]
    simp only [show s.length - i - 1 = s.length - 1 - i from by omega]

theorem wfMS_parts {A : SuperMultiSet} (h : wfMS A = true) :
    A.unbarred = A.elems.filter (fun x => rawParity x == 0) ∧
    A.barred = A.elems.filter (fun x => rawParity x == 1) := by
  rw [wfMS] at h
  simp only [Bool.and_eq_true, List.all_eq_true] at h
  obtain ⟨⟨⟨hu, hb⟩, _⟩, _⟩ := h
  have h01 : ∀ x : Int, rawParity x = 0 → (rawParity x == 1) = false := by
    intro x hx; simp [hx]
  have h10 : ∀ x : Int, rawParity x = 1 → (rawParity x == 0) = false := by
    intro x hx; simp [hx]
  constructor
  · rw [SuperMultiSet.elems, List.filter_append,
      List.filter_eq_self.mpr hu,
      List.filter_eq_nil_iff.mpr (fun x hx => by
        simp only [Bool.not_eq_true]
        exact h10 x (by simpa using hb x hx)),
      List.append_nil]
  · rw [SuperMultiSet.elems, List.filter_append,
      List.filter_eq_nil_iff.mpr (fun x hx => by
        simp only [Bool.not_eq_true]
        exact h01 x (by simpa using hu x hx)),
      List.filter_eq_self.mpr hb,
      List.nil_append]

/-- Two canonical multisets that compare incomparable are equal. -/
theorem wfMS_eq_of_incomp {A B : SuperMultiSet} (hA : wfMS A = true)
    (hB : wfMS B = true) (h1 : A.lt B = false) (h2 : B.lt A = false) :
    A = B := by
  rw [msLt_eq_lex] at h1 h2
  have hp := lexLtB_conn _ _ h1 h2
  rw [peelSeq_of_sorted (wfMS_elems_pairwise hA),
    peelSeq_of_sorted (wfMS_elems_pairwise hB)] at hp
  have he : A.elems = B.elems := List.reverse_injective hp
  obtain ⟨hu1, hb1⟩ := wfMS_parts hA
  obtain ⟨hu2, hb2⟩ := wfMS_parts hB
  cases A; cases B
  simp only at hu1 hb1 hu2 hb2 he ⊢
  rw [SuperMultiSet.mk.injEq]
  constructor
  · rw [hu1, hu2, he]
  · rw [hb1, hb2, he]

theorem msLt_asymm {A B : SuperMultiSet} (h : A.lt B = true) :
    B.lt A = false := by
  rw [msLt_eq_lex] at h ⊢
  exact lexLtB_asymm _ _ h

theorem msLt_trans {A B C : SuperMultiSet} (h1 : A.lt B = true)
    (h2 : B.lt C = true) : A.lt C = true := by
  rw [msLt_eq_lex] at h1 h2 ⊢
  exact lexLtB_trans _ _ _ h1 h2

theorem msLt_not_not_trans {A B C : SuperMultiSet} (h1 : C.lt B = false)
    (h2 : B.lt A = false) : C.lt A = false := by
  rw [msLt_eq_lex] at h1 h2 ⊢
  by_cases hca : lexLtB (peelSeq C.elems) (peelSeq A.elems) = true
  · exfalso
    by_cases hab : lexLtB (peelSeq A.elems) (peelSeq B.elems) = true
    · rw [lexLtB_trans _ _ _ hca hab] at h1; exact Bool.noConfusion h1
    · have := lexLtB_conn _ _ h2 (bool_false hab)
      rw [← this] at hca
      rw [hca] at h1; exact Bool.noConfusion h1
  · exact bool_false hca

/-! ## Shape effect of one insertion -/

theorem list_set_getD_self (l : List Nat) (i : Nat) (h : i < l.length) :
    l.set i (l.getD i 0) = l := by
  apply List.ext_getElem
  · simp
  · intro n h1 h2
    rw [List.getElem_set]
    split_ifs with hin
    · subst hin
      rw [List.getD_eq_getElem _ _ h]
    · rfl

theorem rowLengths_length (T : SMPT) : (rowLengths T).length = T.length := by
  simp [rowLengths]

theorem rowLengths_set (T : SMPT) (i : Nat) (r : List SuperMultiSet) :
    rowLengths (T.set i r) = (rowLengths T).set i r.length := by
  simp [rowLengths, List.map_set]

theorem rowLengths_getD (T : SMPT) (i : Nat) (h : i < T.length) :
    (rowLengths T).getD i 0 = (T.getD i []).length := by
  rw [List.getD_eq_getElem _ _ (by rw [rowLengths_length]; exact h),
    List.getD_eq_getElem _ _ h]
  simp [rowLengths]

theorem rowLengths_append_one (T : SMPT) (A : SuperMultiSet) :
    rowLengths (T ++ [[A]]) = rowLengths T ++ [1] := by
  simp [rowLengths]

theorem findBump_lt {p : Nat} {A : SuperMultiSet} :
    ∀ {l : List SuperMultiSet} {j : Nat} {B : SuperMultiSet},
      findBump p A l = some (j, B) → j < l.length ∧ l.getD j dum = B ∧
        bumpCond p B A = true
  | [], j, B => by simp [findBump]
  | C :: rest, j, B => by
    rw [findBump]
    split_ifs with h
    · intro hs
      cases hs
      exact ⟨by simp, rfl, h⟩
    · cases hr : findBump p A rest with
      | none => simp [hr]
      | some r =>
        intro hs
        have hs' : some (r.1 + 1, r.2) = some (j, B) := hs
        obtain ⟨hj, hB⟩ : r.1 + 1 = j ∧ r.2 = B := by
          have h' := Option.some.inj hs'
          exact ⟨congrArg Prod.fst h', congrArg Prod.snd h'⟩
        subst hj; subst hB
        obtain ⟨h1, h2, h3⟩ := findBump_lt hr
        exact ⟨by simpa using h1, by simpa using h2, h3⟩

theorem insertFuel_shape : ∀ (fuel : Nat) (T : SMPT) (A : SuperMultiSet)
    (p i : Nat) (T1 : SMPT) (x y : Nat),
    insertFuel fuel T A p i = some (T1, x, y) →
    y ≤ T.length ∧ rowLengths T1 = growAt (rowLengths T) y := by
  intro fuel
  induction fuel with
  | zero =>
    intro T A p i T1 x y h
    rw [show insertFuel 0 T A p i = none from rfl] at h
    cases h
  | succ fuel ih =>
    intro T A p i T1 x y h
    rw [insertFuel] at h
    by_cases hT : T.length = 0
    · rw [if_pos hT] at h
      obtain ⟨rfl, rfl, rfl⟩ := by
        simpa using h
      have : T = [] := List.length_eq_zero.mp hT
      subst this
      exact ⟨by simp, by simp [rowLengths, growAt]⟩
    · rw [if_neg hT] at h
      by_cases hrow : p = A.parity
      · rw [if_pos hrow] at h
        by_cases hend : i = T.length
        · rw [if_pos hend] at h
          obtain ⟨rfl, rfl, rfl⟩ := by simpa using h
          refine ⟨le_of_eq hend, ?_⟩
          rw [rowLengths_append_one, growAt, if_neg (by rw [rowLengths_length]; omega)]
        · rw [if_neg hend] at h
          by_cases hin : i < T.length
          · rw [if_pos hin] at h
            cases hfb : findBump p A (T.getD i []) with
            | some r =>
              obtain ⟨x0, B⟩ := r
              simp only [hfb] at h
              have hpres : rowLengths (T.set i ((T.getD i []).set x0 A)) =
                  rowLengths T := by
                rw [rowLengths_set, List.length_set,
                  ← rowLengths_getD T i hin, list_set_getD_self _ _
                    (by rw [rowLengths_length]; exact hin)]
              obtain ⟨h1, h2⟩ := ih _ _ _ _ _ _ _ h
              rw [List.length_set] at h1
              rw [hpres] at h2
              exact ⟨h1, h2⟩
            | none =>
              simp only [hfb] at h
              obtain ⟨rfl, rfl, rfl⟩ := by simpa using h
              refine ⟨le_of_lt hin, ?_⟩
              rw [rowLengths_set, List.length_append, growAt,
                if_pos (by rw [rowLengths_length]; exact hin),
                rowLengths_getD T i hin]
              simp [List.getD]
          · rw [if_neg hin] at h
            cases h
      · rw [if_neg hrow] at h
        by_cases hnew : i = (T.getD 0 []).length
        · rw [if_pos hnew] at h
          obtain ⟨rfl, rfl, rfl⟩ := by simpa using h
          refine ⟨Nat.zero_le _, ?_⟩
          rw [rowLengths_set, List.length_append, growAt,
            if_pos (by rw [rowLengths_length]; omega),
            rowLengths_getD T 0 (by omega)]
          simp [List.getD]
        · rw [if_neg hnew] at h
          cases hfb : findBump p A (colCells T i) with
          | some r =>
            obtain ⟨y0, B⟩ := r
            simp only [hfb] at h
            by_cases hx : i < (T.getD y0 []).length
            · rw [if_pos hx] at h
              have hy0 : y0 < T.length := by
                by_contra hcon
                have : T.getD y0 [] = [] :=
                  List.getD_eq_default _ _ (by omega)
                rw [this] at hx
                simp at hx
              have hpres : rowLengths (T.set y0 ((T.getD y0 []).set i A)) =
                  rowLengths T := by
                rw [rowLengths_set, List.length_set,
                  ← rowLengths_getD T y0 hy0, list_set_getD_self _ _
                    (by rw [rowLengths_length]; exact hy0)]
              obtain ⟨h1, h2⟩ := ih _ _ _ _ _ _ _ h
              rw [List.length_set] at h1
              rw [hpres] at h2
              exact ⟨h1, h2⟩
            · rw [if_neg hx] at h
              cases h
          | none =>
            simp only [hfb] at h
            have hcolle : (colCells T i).length ≤ T.length := by
              rw [colCells, List.length_map]
              exact List.length_filter_le _ _
            by_cases hy : (colCells T i).length < T.length
            · rw [if_pos hy] at h
              obtain ⟨rfl, rfl, rfl⟩ := by simpa using h
              refine ⟨le_of_lt hy, ?_⟩
              rw [rowLengths_set, List.length_append, growAt,
                if_pos (by rw [rowLengths_length]; exact hy),
                rowLengths_getD T _ hy]
              simp [List.getD]
            · rw [if_neg hy] at h
              obtain ⟨rfl, rfl, rfl⟩ := by simpa using h
              refine ⟨hcolle, ?_⟩
              rw [rowLengths_append_one, growAt,
                if_neg (by rw [rowLengths_length]; omega)]


/-! ## Shape consistency of the two tableaux built by sRSK -/

theorem sRSKGo_shape : ∀ (w : List SuperBiLetter) (fuel : Nat)
    (P Q P1 Q1 : SMPT), rowLengths P = rowLengths Q →
    sRSKGo fuel P Q w = some (P1, Q1) → rowLengths P1 = rowLengths Q1 := by
  intro w
  induction w with
  | nil =>
    intro fuel P Q P1 Q1 hlen h
    obtain ⟨rfl, rfl⟩ := by simpa [sRSKGo] using h
    exact hlen
  | cons a rest ih =>
    intro fuel P Q P1 Q1 hlen h
    rw [sRSKGo] at h
    cases hins : insertFuel fuel P a.2 a.1.parity 0 with
    | none => rw [hins] at h; exact absurd h (by simp)
    | some r =>
      rw [hins] at h
      obtain ⟨hy, hsh⟩ := insertFuel_shape _ _ _ _ _ _ _ _
        (by rw [hins])
      have hPQlen : P.length = Q.length := by
        have := congrArg List.length hlen
        rwa [rowLengths_length, rowLengths_length] at this
      have hQ1 : rowLengths (if r.2.2 < Q.length then
          Q.set r.2.2 ((Q.getD r.2.2 []) ++ [a.1]) else Q ++ [[a.1]]) =
          growAt (rowLengths Q) r.2.2 := by
        by_cases hcase : r.2.2 < Q.length
        · rw [if_pos hcase, rowLengths_set, List.length_append,
            growAt, if_pos (by rw [rowLengths_length]; exact hcase),
            rowLengths_getD Q _ hcase]
          rfl
        · rw [if_neg hcase, rowLengths_append_one, growAt,
            if_neg (by rw [rowLengths_length]; exact hcase)]
      refine ih _ _ _ _ _ ?_ h
      rw [hsh, hQ1, hlen]

/-- C6: at every prefix length `k` of a biword, when the embedded `sRSK`
completes on that prefix, the insertion tableau `P` and the recording
tableau `Q` it returns have identical row-length shapes.  (The state of
the `sRSK` loop after `k` biletters equals the run on the length-`k`
prefix, so this is shape agreement after every single insertion.) -/
theorem sRSK_shape_consistency :
    ∀ (fuel : Nat) (bw : List (List Int × List Int)) (k : Nat) (P Q : SMPT),
    sRSKFuel fuel (bw.take k) = some (Except.ok (P, Q)) →
    rowLengths P = rowLengths Q := by
  intro fuel bw k P Q h
  rw [sRSKFuel] at h
  split_ifs at h with hvalid
  · simp at h
  · cases hgo : sRSKGo fuel [] [] (toBL (bw.take k)) with
    | none => rw [hgo] at h; exact absurd h (by simp)
    | some r =>
      rw [hgo] at h
      have h' : (Except.ok r : Except Unit (SMPT × SMPT)) = Except.ok (P, Q) :=
        Option.some.inj h
      obtain rfl : r = (P, Q) := Except.ok.inj h'
      exact sRSKGo_shape _ _ _ _ _ _ rfl (by rw [hgo])

/-- Witness for C6 on a concrete one-letter biword. -/
theorem sRSK_shape_consistency_witness :
    rowLengths [[ms [1]]] = rowLengths [[ms [1]]] :=
  sRSK_shape_consistency 5 [([1], [1])] 1 [[ms [1]]] [[ms [1]]] (by decide)

/-! ## Bump-condition order facts -/

theorem bumpCond_zero (B A : SuperMultiSet) : bumpCond 0 B A = B.gt A := by
  simp [bumpCond]

theorem bumpCond_one (B A : SuperMultiSet) : bumpCond 1 B A = B.ge A := by
  simp [bumpCond]

theorem msGt_iff {B A : SuperMultiSet} :
    B.gt A = true ↔ B.lt A = false ∧ ¬B = A := by
  rw [SuperMultiSet.gt]
  rcases h : B.lt A with _ | _ <;> simp [h]

theorem msGe_iff {B A : SuperMultiSet} : B.ge A = true ↔ B.lt A = false := by
  rw [SuperMultiSet.ge]
  rcases h : B.lt A with _ | _ <;> simp [h]

theorem nat_le_one_cases {p : Nat} (hp : p ≤ 1) : p = 0 ∨ p = 1 := by omega

theorem bump_strict {p : Nat} (hp : p ≤ 1) {A B : SuperMultiSet}
    (hA : wfMS A = true) (hB : wfMS B = true)
    (hBA : bumpCond p B A = true) (hne : ¬B = A) : A.lt B = true := by
  have hflt : B.lt A = false := by
    rcases nat_le_one_cases hp with rfl | rfl
    · rw [bumpCond_zero] at hBA
      exact (msGt_iff.mp hBA).1
    · rw [bumpCond_one] at hBA
      exact msGe_iff.mp hBA
  by_cases h : A.lt B = true
  · exact h
  · exact absurd (wfMS_eq_of_incomp hB hA hflt (bool_false h)) hne

theorem bump_transfer {p : Nat} (hp : p ≤ 1) {A B C : SuperMultiSet}
    (hlt : A.lt B = true) (hCB : bumpCond p C B = true) :
    bumpCond p C A = true := by
  have hBA : B.lt A = false := msLt_asymm hlt
  rcases nat_le_one_cases hp with rfl | rfl
  · rw [bumpCond_zero] at hCB ⊢
    obtain ⟨h1, h2⟩ := msGt_iff.mp hCB
    rw [msGt_iff]
    refine ⟨msLt_not_not_trans h1 hBA, fun hcon => ?_⟩
    subst hcon
    rw [hlt] at h1
    exact Bool.noConfusion h1
  · rw [bumpCond_one] at hCB ⊢
    rw [msGe_iff] at hCB ⊢
    exact msLt_not_not_trans hCB hBA

theorem bump_noRefl {p : Nat} (hp : p ≤ 1) {A B : SuperMultiSet}
    (hlt : A.lt B = true) : bumpCond p A B = false := by
  rcases nat_le_one_cases hp with rfl | rfl
  · rw [bumpCond_zero, SuperMultiSet.gt, hlt]
    rfl
  · rw [bumpCond_one, SuperMultiSet.ge, hlt]
    rfl

/-! ## Well-formedness and partition-shape helpers -/

theorem list_set_getD_self' {α : Type} (l : List α) (i : Nat) (d : α)
    (h : i < l.length) : l.set i (l.getD i d) = l := by
  apply List.ext_getElem
  · simp
  · intro n h1 h2
    rw [List.getElem_set]
    split_ifs with hin
    · subst hin
      rw [List.getD_eq_getElem _ _ h]
    · rfl

theorem getD_mem' {α : Type} (l : List α) (i : Nat) (d : α)
    (h : i < l.length) : l.getD i d ∈ l := by
  rw [List.getD_eq_getElem _ _ h]
  exact List.getElem_mem h

theorem wfTab_cell {T : SMPT} (hT : wfTab T = true) {y x : Nat}
    (hy : y < T.length) (hx : x < (T.getD y []).length) :
    wfMS ((T.getD y []).getD x dum) = true := by
  rw [wfTab, List.all_eq_true] at hT
  have := hT _ (getD_mem' T y [] hy)
  rw [List.all_eq_true] at this
  exact this _ (getD_mem' _ x dum hx)

theorem wfTab_set {T : SMPT} (hT : wfTab T = true) {y x : Nat}
    {A : SuperMultiSet} (hA : wfMS A = true) :
    wfTab (T.set y ((T.getD y []).set x A)) = true := by
  rw [wfTab, List.all_eq_true] at hT ⊢
  intro row hrow
  rcases List.mem_or_eq_of_mem_set hrow with hmem | rfl
  · exact hT _ hmem
  · rw [List.all_eq_true]
    intro C hC
    rcases List.mem_or_eq_of_mem_set hC with hmem | rfl
    · by_cases hy : y < T.length
      · have := hT _ (getD_mem' T y [] hy)
        rw [List.all_eq_true] at this
        exact this _ hmem
      · rw [List.getD_eq_default _ _ (by omega)] at hmem
        cases hmem
    · exact hA

theorem rowLengths_set_cell (T : SMPT) (y x : Nat) (A : SuperMultiSet)
    (hy : y < T.length) :
    rowLengths (T.set y ((T.getD y []).set x A)) = rowLengths T := by
  rw [rowLengths_set, List.length_set, ← rowLengths_getD T y hy,
    list_set_getD_self _ _ (by rw [rowLengths_length]; exact hy)]

theorem row0_len_of_rowLengths_eq {T1 T : SMPT}
    (h : rowLengths T1 = rowLengths T) (hT : 0 < T.length) :
    (T1.getD 0 []).length = (T.getD 0 []).length := by
  have hlen : T1.length = T.length := by
    have := congrArg List.length h
    rwa [rowLengths_length, rowLengths_length] at this
  rw [← rowLengths_getD T 0 hT, ← rowLengths_getD T1 0 (by omega), h]

theorem decLens_cons : ∀ {a : Nat} {l : List Nat}, decLens (a :: l) = true →
    decLens l = true ∧ ∀ b ∈ l, b ≤ a
  | _, [] => fun _ => ⟨rfl, by simp⟩
  | a, b :: r => fun h => by
    rw [decLens] at h
    simp only [Bool.and_eq_true, decide_eq_true_eq] at h
    obtain ⟨hba, hrest⟩ := h
    obtain ⟨_, h2⟩ := decLens_cons hrest
    refine ⟨hrest, fun c hc => ?_⟩
    rcases List.mem_cons.mp hc with rfl | hc
    · exact hba
    · exact le_trans (h2 c hc) hba

theorem rowLengths_cons (r : List SuperMultiSet) (rest : SMPT) :
    rowLengths (r :: rest) = r.length :: rowLengths rest := by
  simp [rowLengths]

theorem partShaped_tail {r : List SuperMultiSet} {rest : SMPT}
    (h : partShaped (r :: rest) = true) : partShaped rest = true := by
  rw [partShaped, rowLengths_cons] at h
  exact (decLens_cons h).1

theorem partShaped_head_le {r : List SuperMultiSet} {rest : SMPT}
    (h : partShaped (r :: rest) = true) {s : List SuperMultiSet}
    (hs : s ∈ rest) : s.length ≤ r.length := by
  rw [partShaped, rowLengths_cons] at h
  exact (decLens_cons h).2 _ (by exact List.mem_map_of_mem _ hs)

theorem partShaped_le : ∀ (T : SMPT), partShaped T = true → ∀ j, j < T.length →
    (T.getD j []).length ≤ (T.getD 0 []).length
  | [], _, j, hj => by simp at hj
  | _ :: _, _, 0, _ => le_refl _
  | r :: rest, h, j + 1, hj => by
    rw [List.getD_cons_succ, List.getD_cons_zero]
    exact partShaped_head_le h (getD_mem' rest j [] (by simpa using hj))

theorem partShaped_set_cell {T : SMPT} (h : partShaped T = true) (y x : Nat)
    (A : SuperMultiSet) (hy : y < T.length) :
    partShaped (T.set y ((T.getD y []).set x A)) = true := by
  rw [partShaped, rowLengths_set_cell T y x A hy]
  exact h

/-! ## Alignment of the column list over a partition shape -/

theorem col_align : ∀ (T : SMPT), partShaped T = true → ∀ (x j : Nat),
    j < (colCells T x).length →
    j < T.length ∧ x < (T.getD j []).length ∧
      (colCells T x).getD j dum = (T.getD j []).getD x dum
  | [], _, x, j => by simp [colCells]
  | r :: rest, h, x, j => by
    intro hj
    by_cases hx : x < r.length
    · have hcol : colCells (r :: rest) x = r.getD x dum :: colCells rest x := by
        simp [colCells, hx]
      cases j with
      | zero => exact ⟨by simp, by simpa using hx, by rw [hcol]; simp⟩
      | succ j =>
        rw [hcol] at hj
        obtain ⟨h1, h2, h3⟩ := col_align rest (partShaped_tail h) x j
          (by simpa using hj)
        refine ⟨by simpa using h1, by simpa using h2, ?_⟩
        rw [hcol, List.getD_cons_succ, List.getD_cons_succ]
        exact h3
    · exfalso
      have hcol : colCells (r :: rest) x = [] := by
        rw [colCells, List.filter_cons_of_neg (by simpa using hx),
          List.filter_eq_nil_iff.mpr, List.map_nil]
        intro s hs
        simp only [decide_eq_true_eq]
        have := partShaped_head_le h hs
        omega
      rw [hcol] at hj
      simp at hj

/-! ## Counting lemmas for the insertion measure -/

theorem countBump_mono {p : Nat} {A B : SuperMultiSet} (T : SMPT)
    (hmono : ∀ C, bumpCond p C B = true → bumpCond p C A = true) :
    countBump p B T ≤ countBump p A T := by
  apply List.sum_le_sum
  intro row _
  exact List.countP_mono_left (fun C _ => hmono C)

theorem countBump_bump {T : SMPT} {y x p : Nat} {A B : SuperMultiSet}
    (hy : y < T.length) (hx : x < (T.getD y []).length)
    (hcell : (T.getD y []).getD x dum = B)
    (hmono : ∀ C, bumpCond p C B = true → bumpCond p C A = true)
    (hAB : bumpCond p A B = false)
    (hBA : bumpCond p B A = true) :
    countBump p B (T.set y ((T.getD y []).set x A)) < countBump p A T := by
  have hT : T = T.take y ++ (T.getD y []) :: T.drop (y + 1) := by
    conv_lhs => rw [← List.take_append_drop y T]
    congr 1
    rw [List.drop_eq_getElem_cons hy]
    congr 1
    rw [List.getD_eq_getElem _ _ hy]
  have hTset : T.set y ((T.getD y []).set x A) =
      T.take y ++ ((T.getD y []).set x A) :: T.drop (y + 1) := by
    rw [List.set_eq_take_append_cons_drop, if_pos hy]
  have hrowd : T.getD y [] =
      (T.getD y []).take x ++ B :: (T.getD y []).drop (x + 1) := by
    conv_lhs => rw [← List.take_append_drop x (T.getD y [])]
    congr 1
    rw [List.drop_eq_getElem_cons hx]
    congr 1
    rw [← hcell, List.getD_eq_getElem _ _ hx]
  have hrowset : (T.getD y []).set x A =
      (T.getD y []).take x ++ A :: (T.getD y []).drop (x + 1) := by
    rw [List.set_eq_take_append_cons_drop, if_pos hx]
  rw [countBump, countBump, hTset]
  conv_rhs => rw [hT]
  rw [List.map_append, List.map_cons, List.sum_append, List.sum_cons,
    List.map_append, List.map_cons, List.sum_append, List.sum_cons]
  have h1 : ((T.take y).map
      (fun row => row.countP (fun C => bumpCond p C B))).sum ≤
      ((T.take y).map (fun row => row.countP (fun C => bumpCond p C A))).sum :=
    List.sum_le_sum (fun row _ => List.countP_mono_left (fun C _ => hmono C))
  have h2 : ((T.drop (y + 1)).map
      (fun row => row.countP (fun C => bumpCond p C B))).sum ≤
      ((T.drop (y + 1)).map
        (fun row => row.countP (fun C => bumpCond p C A))).sum :=
    List.sum_le_sum (fun row _ => List.countP_mono_left (fun C _ => hmono C))
  have hcenter : ((T.getD y []).set x A).countP (fun C => bumpCond p C B) + 1 ≤
      (T.getD y []).countP (fun C => bumpCond p C A) := by
    rw [hrowset, List.countP_append, List.countP_cons]
    conv_rhs => rw [hrowd]
    rw [List.countP_append, List.countP_cons]
    have e1 : ((T.getD y []).take x).countP (fun C => bumpCond p C B) ≤
        ((T.getD y []).take x).countP (fun C => bumpCond p C A) :=
      List.countP_mono_left (fun C _ => hmono C)
    have e2 : ((T.getD y []).drop (x + 1)).countP (fun C => bumpCond p C B) ≤
        ((T.getD y []).drop (x + 1)).countP (fun C => bumpCond p C A) :=
      List.countP_mono_left (fun C _ => hmono C)
    rw [hAB, hBA, if_neg (by decide), if_pos rfl]
    omega
  omega

/-! ## Termination of the insertion chain -/

theorem measure_lt_of_count_lt {c' c b j : Nat} (hc : c' < c) :
    c' * (b + 1) + (b - j) < c * (b + 1) := by
  have h2 : c' * (b + 1) + (b + 1) = (c' + 1) * (b + 1) := by ring
  have h3 : (c' + 1) * (b + 1) ≤ c * (b + 1) := Nat.mul_le_mul_right _ hc
  omega

theorem insert_total : ∀ (n : Nat) (T : SMPT) (A : SuperMultiSet) (p i : Nat),
    p ≤ 1 → wfTab T = true → wfMS A = true → partShaped T = true →
    (p = A.parity → i ≤ T.length) →
    (p ≠ A.parity → i ≤ (T.getD 0 []).length) →
    insMeasure T A p i ≤ n →
    ∃ fuel T1 x y, insertFuel fuel T A p i = some (T1, x, y) := by
  intro n
  induction n using Nat.strong_induction_on with
  | _ n ih =>
    intro T A p i hp hwT hwA hps hrowB hcolB hm
    by_cases hT0 : T.length = 0
    · refine ⟨1, [[A]], 0, 0, ?_⟩
      show insertFuel (0 + 1) T A p i = some ([[A]], 0, 0)
      simp only [insertFuel]
      rw [if_pos hT0]
    · by_cases hmode : p = A.parity
      · -- row insertion
        by_cases hend : i = T.length
        · refine ⟨1, T ++ [[A]], 0, i, ?_⟩
          show insertFuel (0 + 1) T A p i = some (T ++ [[A]], 0, i)
          simp only [insertFuel]
          rw [if_neg hT0, if_pos hmode, if_pos hend]
        · have hin : i < T.length := lt_of_le_of_ne (hrowB hmode) hend
          cases hfb : findBump p A (T.getD i []) with
          | none =>
            refine ⟨1, T.set i ((T.getD i []) ++ [A]), (T.getD i []).length, i, ?_⟩
            show insertFuel (0 + 1) T A p i = _
            simp only [insertFuel]
            rw [if_neg hT0, if_pos hmode, if_neg hend, if_pos hin]
            simp only [hfb]
          | some r =>
            obtain ⟨x0, B⟩ := r
            obtain ⟨hx0, hcell, hcond⟩ := findBump_lt hfb
            have hwB : wfMS B = true := by
              rw [← hcell]; exact wfTab_cell hwT hin hx0
            have hpres : rowLengths (T.set i ((T.getD i []).set x0 A)) =
                rowLengths T := rowLengths_set_cell T i x0 A hin
            have hlen1 : (T.set i ((T.getD i []).set x0 A)).length = T.length := by
              simp
            have hrow0 : ((T.set i ((T.getD i []).set x0 A)).getD 0 []).length =
                (T.getD 0 []).length := row0_len_of_rowLengths_eq hpres (by omega)
            have hbound : insBound (T.set i ((T.getD i []).set x0 A)) =
                insBound T := by
              rw [insBound, insBound, hlen1, hrow0]
            have hwT1 : wfTab (T.set i ((T.getD i []).set x0 A)) = true :=
              wfTab_set hwT hwA
            have hps1 : partShaped (T.set i ((T.getD i []).set x0 A)) = true :=
              partShaped_set_cell hps i x0 A hin
            by_cases hBA : B = A
            · have hTeq : T.set i ((T.getD i []).set x0 A) = T := by
                conv_lhs => rw [← hBA, ← hcell]
                rw [list_set_getD_self' _ _ _ hx0, list_set_getD_self' _ _ _ hin]
              have hpar : B.parity = p := by rw [hBA, ← hmode]
              have hi : i < insBound T := by rw [insBound]; omega
              have hmlt : insMeasure T A p (i + 1) < insMeasure T A p i := by
                rw [insMeasure, insMeasure]; omega
              obtain ⟨fuel, T2, x2, y2, hrec⟩ := ih (n - 1) (by omega) T A p (i + 1)
                hp hwT hwA hps (fun _ => hin) (fun hcon => absurd hmode hcon)
                (by omega)
              refine ⟨fuel + 1, T2, x2, y2, ?_⟩
              simp only [insertFuel]
              rw [if_neg hT0, if_pos hmode, if_neg hend, if_pos hin]
              simp only [hfb]
              rw [if_pos hpar, hTeq, hBA]
              exact hrec
            · have hlt : A.lt B = true := bump_strict hp hwA hwB hcond hBA
              have hcount : countBump p B (T.set i ((T.getD i []).set x0 A)) <
                  countBump p A T :=
                countBump_bump hin hx0 hcell (fun C => bump_transfer hp hlt)
                  (bump_noRefl hp hlt) hcond
              set i' := if B.parity = p then i + 1 else x0 + 1 with hi'
              have hibrow : B.parity = p → i' ≤ T.length := by
                intro hpar; rw [hi', if_pos hpar]; exact hin
              have hibcol : ¬B.parity = p → i' ≤ (T.getD 0 []).length := by
                intro hpar; rw [hi', if_neg hpar]
                have := partShaped_le T hps i hin
                omega
              have hmlt : insMeasure (T.set i ((T.getD i []).set x0 A)) B p i' <
                  insMeasure T A p i := by
                rw [insMeasure, insMeasure, hbound]
                calc countBump p B (T.set i ((T.getD i []).set x0 A)) *
                      (insBound T + 1) + (insBound T - i')
                    < countBump p A T * (insBound T + 1) :=
                      measure_lt_of_count_lt hcount
                  _ ≤ _ := Nat.le_add_right _ _
              obtain ⟨fuel, T2, x2, y2, hrec⟩ := ih (n - 1) (by omega)
                (T.set i ((T.getD i []).set x0 A)) B p i' hp hwT1 hwB hps1
                (fun hpar => by rw [hlen1]; exact hibrow (by rw [hpar]))
                (fun hpar => by
                  rw [hrow0]
                  exact hibcol (fun hcon => hpar (by rw [hcon])))
                (by omega)
              refine ⟨fuel + 1, T2, x2, y2, ?_⟩
              simp only [insertFuel]
              rw [if_neg hT0, if_pos hmode, if_neg hend, if_pos hin]
              simp only [hfb]
              rw [← hi']
              exact hrec
      · -- column insertion
        have hib : i ≤ (T.getD 0 []).length := hcolB hmode
        by_cases hend : i = (T.getD 0 []).length
        · refine ⟨1, T.set 0 ((T.getD 0 []) ++ [A]), (T.getD 0 []).length, 0, ?_⟩
          show insertFuel (0 + 1) T A p i = _
          simp only [insertFuel]
          rw [if_neg hT0, if_neg hmode, if_pos hend]
        · have hin : i < (T.getD 0 []).length := lt_of_le_of_ne hib hend
          cases hfb : findBump p A (colCells T i) with
          | none =>
            by_cases hy : (colCells T i).length < T.length
            · refine ⟨1, T.set (colCells T i).length
                ((T.getD (colCells T i).length []) ++ [A]), i,
                (colCells T i).length, ?_⟩
              show insertFuel (0 + 1) T A p i = _
              simp only [insertFuel]
              rw [if_neg hT0, if_neg hmode, if_neg hend]
              simp only [hfb]
              rw [if_pos hy]
            · refine ⟨1, T ++ [[A]], i, (colCells T i).length, ?_⟩
              show insertFuel (0 + 1) T A p i = _
              simp only [insertFuel]
              rw [if_neg hT0, if_neg hmode, if_neg hend]
              simp only [hfb]
              rw [if_neg hy]
          | some r =>
            obtain ⟨j, B⟩ := r
            obtain ⟨hjlt, hcolcell, hcond⟩ := findBump_lt hfb
            obtain ⟨hjT, hxj, hcellj⟩ := col_align T hps i j hjlt
            have hcell : (T.getD j []).getD i dum = B := by
              rw [← hcellj]; exact hcolcell
            have hwB : wfMS B = true := by
              rw [← hcell]; exact wfTab_cell hwT hjT hxj
            have hpres : rowLengths (T.set j ((T.getD j []).set i A)) =
                rowLengths T := rowLengths_set_cell T j i A hjT
            have hlen1 : (T.set j ((T.getD j []).set i A)).length = T.length := by
              simp
            have hrow0 : ((T.set j ((T.getD j []).set i A)).getD 0 []).length =
                (T.getD 0 []).length := row0_len_of_rowLengths_eq hpres (by omega)
            have hbound : insBound (T.set j ((T.getD j []).set i A)) =
                insBound T := by
              rw [insBound, insBound, hlen1, hrow0]
            have hwT1 : wfTab (T.set j ((T.getD j []).set i A)) = true :=
              wfTab_set hwT hwA
            have hps1 : partShaped (T.set j ((T.getD j []).set i A)) = true :=
              partShaped_set_cell hps j i A hjT
            by_cases hBA : B = A
            · have hTeq : T.set j ((T.getD j []).set i A) = T := by
                conv_lhs => rw [← hBA, ← hcell]
                rw [list_set_getD_self' _ _ _ hxj, list_set_getD_self' _ _ _ hjT]
              have hpar : ¬B.parity = p := by
                rw [hBA]
                exact fun hcon => hmode hcon.symm
              have hi : i < insBound T := by rw [insBound]; omega
              have hmlt : insMeasure T A p (i + 1) < insMeasure T A p i := by
                rw [insMeasure, insMeasure]; omega
              obtain ⟨fuel, T2, x2, y2, hrec⟩ := ih (n - 1) (by omega) T A p (i + 1)
                hp hwT hwA hps (fun hcon => absurd hcon hmode) (fun _ => hin)
                (by omega)
              refine ⟨fuel + 1, T2, x2, y2, ?_⟩
              simp only [insertFuel]
              rw [if_neg hT0, if_neg hmode, if_neg hend]
              simp only [hfb]
              rw [if_pos hxj, if_neg hpar, hTeq, hBA]
              exact hrec
            · have hlt : A.lt B = true := bump_strict hp hwA hwB hcond hBA
              have hcount : countBump p B (T.set j ((T.getD j []).set i A)) <
                  countBump p A T :=
                countBump_bump hjT hxj hcell (fun C => bump_transfer hp hlt)
                  (bump_noRefl hp hlt) hcond
              set i' := if B.parity = p then j + 1 else i + 1 with hi'
              have hibrow : B.parity = p → i' ≤ T.length := by
                intro hpar; rw [hi', if_pos hpar]; exact hjT
              have hibcol : ¬B.parity = p → i' ≤ (T.getD 0 []).length := by
                intro hpar; rw [hi', if_neg hpar]; exact hin
              have hmlt : insMeasure (T.set j ((T.getD j []).set i A)) B p i' <
                  insMeasure T A p i := by
                rw [insMeasure, insMeasure, hbound]
                calc countBump p B (T.set j ((T.getD j []).set i A)) *
                      (insBound T + 1) + (insBound T - i')
                    < countBump p A T * (insBound T + 1) :=
                      measure_lt_of_count_lt hcount
                  _ ≤ _ := Nat.le_add_right _ _
              obtain ⟨fuel, T2, x2, y2, hrec⟩ := ih (n - 1) (by omega)
                (T.set j ((T.getD j []).set i A)) B p i' hp hwT1 hwB hps1
                (fun hpar => by rw [hlen1]; exact hibrow (by rw [hpar]))
                (fun hpar => by
                  rw [hrow0]
                  exact hibcol (fun hcon => hpar (by rw [hcon])))
                (by omega)
              refine ⟨fuel + 1, T2, x2, y2, ?_⟩
              simp only [insertFuel]
              rw [if_neg hT0, if_neg hmode, if_neg hend]
              simp only [hfb]
              rw [if_pos hxj, ← hi']
              exact hrec

/-- C7 (amended): for every parity in `{0, 1}`, every constructed
(well-formed) multiset value and every partition-shaped tableau of
well-formed cells, the recursive insert terminates (some fuel makes the
fuelled embedding succeed) and the resulting tableau's shape has grown
by exactly one cell, appended at the end of row `y` of the returned
coordinate `(x, y)` (a new row when `y` equals the old row count).  The
original claim's assertion that the returned coordinate always lies
inside the resulting shape is dropped: `insert_coordinate_counterexample`
refutes it. -/
theorem insert_terminates_grows : ∀ (T : SMPT) (A : SuperMultiSet) (p : Nat),
    p ≤ 1 → wfTab T = true → wfMS A = true → partShaped T = true →
    ∃ fuel T1 x y, insertFuel fuel T A p 0 = some (T1, x, y) ∧
      y ≤ T.length ∧ rowLengths T1 = growAt (rowLengths T) y := by
  intro T A p hp hw hA hs
  obtain ⟨fuel, T1, x, y, h⟩ := insert_total (insMeasure T A p 0) T A p 0 hp hw
    hA hs (fun _ => Nat.zero_le _) (fun _ => Nat.zero_le _) le_rfl
  obtain ⟨h1, h2⟩ := insertFuel_shape _ _ _ _ _ _ _ _ h
  exact ⟨fuel, T1, x, y, h, h1, h2⟩

/-- Witness for C7's amended theorem on a concrete input. -/
theorem insert_terminates_grows_witness :
    ∃ fuel T1 x y, insertFuel fuel ([[ms [1], ms [2]]] : SMPT) (ms [1]) 0 0 =
      some (T1, x, y) ∧ y ≤ ([[ms [1], ms [2]]] : SMPT).length ∧
      rowLengths T1 = growAt (rowLengths [[ms [1], ms [2]]]) y :=
  insert_terminates_grows [[ms [1], ms [2]]] (ms [1]) 0 (by decide) (by decide)
    (by decide) (by decide)

/-- C7 (counterexample): on the well-formed partition-shaped tableau
`tabC7 = [[{1},{1},{-1},{-1}],[{2}]]`, inserting `{1}` with parity 0
bumps `{-1}` out of row 0, the column chain at column 3 finds no cell to
bump and appends `{-1}` to row 1; the call returns coordinate `(3, 1)`
although row 1 of the result has only 2 cells, so the returned
coordinate lies outside the resulting shape. -/
theorem insert_coordinate_counterexample :
    wfTab tabC7 = true ∧ partShaped tabC7 = true ∧ wfMS (ms [1]) = true ∧
    insertFuel 10 tabC7 (ms [1]) 0 0 = some (tabC7out, 3, 1) ∧
    ¬3 < (tabC7out.getD 1 []).length := by decide

/-! ## Extraction: corner rejection and corner removal -/

theorem extractFuel_value_no_error : ∀ (fuel : Nat) (T : SMPT) (x y p : Nat)
    (v : SuperMultiSet),
    extractFuel fuel T x y p (some v) ≠ some (Except.error ()) := by
  intro fuel
  induction fuel with
  | zero =>
    intro T x y p v h
    rw [show extractFuel 0 T x y p (some v) = none from rfl] at h
    cases h
  | succ fuel ih =>
    intro T x y p v h
    simp only [extractFuel] at h
    by_cases hin : y < T.length ∧ x < (T.getD y []).length
    · rw [if_pos hin] at h
      rw [if_neg (by simp)] at h
      by_cases hterm : (p = ((T.getD y []).getD x dum).parity ∧ y = 0) ∨
          (¬p = ((T.getD y []).getD x dum).parity ∧ x = 0)
      · rw [if_pos hterm] at h
        simp at h
      · rw [if_neg hterm] at h
        by_cases hmode : p = ((T.getD y []).getD x dum).parity
        · rw [if_pos hmode] at h
          cases hfr : findRight
              (fun C => extCond p C ((T.getD y []).getD x dum))
              ((T.set y ((T.getD y []).set x v)).getD (y - 1) []) with
          | some x0 =>
            rw [hfr] at h
            exact ih _ _ _ _ _ h
          | none =>
            rw [hfr] at h
            simp at h
        · rw [if_neg hmode] at h
          cases hfr : findRight
              (fun C => extCond p C ((T.getD y []).getD x dum))
              (colCells (T.set y ((T.getD y []).set x v)) (x - 1)) with
          | some y0 =>
            rw [hfr] at h
            exact ih _ _ _ _ _ h
          | none =>
            rw [hfr] at h
            simp at h
    · rw [if_neg hin] at h
      cases h

/-- C8: a terminal `extract` (no `value` argument) raises the
invalid-corner error exactly when the in-range coordinate `(x, y)` is
not a removable outer corner (the cell is not last in its row, or the
row above exists and is at least as long); on the concrete tableau
`tabC8 = [[[1],[1],[2]],[[-1]],[[-2]]]` extraction at the first cell of
the first row errors; and on a valid corner the removal step shortens
row `y` by one cell, dropping the row when it becomes empty. -/
theorem extract_corner_rejection :
    (∀ (T : SMPT) (x y p fuel : Nat), y < T.length →
      x < (T.getD y []).length →
      (extractFuel (fuel + 1) T x y p none = some (Except.error ()) ↔
        ¬((T.getD y []).length = x + 1 ∧
          (y + 1 < T.length → (T.getD (y + 1) []).length < (T.getD y []).length)))) ∧
    extractFuel 5 tabC8 0 0 0 none = some (Except.error ()) ∧
    (∀ (T : SMPT) (x y : Nat), (∀ r ∈ T, r ≠ []) → y < T.length →
      (T.getD y []).length = x + 1 →
      (y + 1 < T.length → (T.getD (y + 1) []).length < (T.getD y []).length) →
      rowLengths (removeCorner T y) =
        (if (T.getD y []).length = 1 then (rowLengths T).dropLast
         else (rowLengths T).set y ((T.getD y []).length - 1))) := by
  refine ⟨?_, by decide, ?_⟩
  · intro T x y p fuel hy hx
    constructor
    · intro herr hc
      simp only [extractFuel] at herr
      rw [if_pos ⟨hy, hx⟩] at herr
      rw [if_neg (by
        rintro ⟨-, hbad | hbad⟩
        · exact hbad hc.1
        · have := hc.2 hbad.1
          omega)] at herr
      by_cases hterm : (p = ((T.getD y []).getD x dum).parity ∧ y = 0) ∨
          (¬p = ((T.getD y []).getD x dum).parity ∧ x = 0)
      · rw [if_pos hterm] at herr
        simp at herr
      · rw [if_neg hterm] at herr
        by_cases hmode : p = ((T.getD y []).getD x dum).parity
        · rw [if_pos hmode] at herr
          cases hfr : findRight (fun C => extCond p C ((T.getD y []).getD x dum))
              ((removeCorner T y).getD (y - 1) []) with
          | some x0 =>
            rw [hfr] at herr
            exact extractFuel_value_no_error _ _ _ _ _ _ herr
          | none =>
            rw [hfr] at herr
            simp at herr
        · rw [if_neg hmode] at herr
          cases hfr : findRight (fun C => extCond p C ((T.getD y []).getD x dum))
              (colCells (removeCorner T y) (x - 1)) with
          | some y0 =>
            rw [hfr] at herr
            exact extractFuel_value_no_error _ _ _ _ _ _ herr
          | none =>
            rw [hfr] at herr
            simp at herr
    · intro hnc
      simp only [extractFuel]
      rw [if_pos ⟨hy, hx⟩]
      rw [if_pos ?_]
      · constructor
        · trivial
        · by_cases h1 : (T.getD y []).length = x + 1
          · right
            by_cases h2 : y + 1 < T.length
            · refine ⟨h2, ?_⟩
              by_cases h3 : (T.getD (y + 1) []).length < (T.getD y []).length
              · exact absurd ⟨h1, fun _ => h3⟩ hnc
              · omega
            · exact absurd ⟨h1, fun hcon => absurd hcon h2⟩ hnc
          · exact Or.inl h1
  · intro T x y hne hy hlen hcorner
    rw [removeCorner]
    have hset : ((T.set y ((T.getD y []).dropLast)).getD y []).length =
        (T.getD y []).length - 1 := by
      rw [List.getD_eq_getElem _ _ (by simpa using hy),
        List.getElem_set_self (by simpa using hy), List.length_dropLast]
    by_cases hone : (T.getD y []).length = 1
    · rw [if_pos (by rw [hset, hone])]
      have hylast : y = T.length - 1 := by
        by_cases hcon : y + 1 < T.length
        · have h1 := hcorner hcon
          have h2 := hne _ (getD_mem' T (y + 1) [] hcon)
          have h3 : 0 < (T.getD (y + 1) []).length :=
            List.length_pos.mpr h2
          omega
        · omega
      rw [if_pos hone]
      have hmapdrop : rowLengths ((T.set y ((T.getD y []).dropLast)).dropLast) =
          (rowLengths (T.set y ((T.getD y []).dropLast))).dropLast := by
        rw [rowLengths, rowLengths, List.map_dropLast]
      rw [hmapdrop, rowLengths_set]
      apply List.ext_getElem
      · simp
      · intro n h1 h2
        rw [List.getElem_dropLast, List.getElem_dropLast,
          List.getElem_set_of_ne ?_]
        intro hcon
        subst hcon
        rw [List.length_dropLast, List.length_set, rowLengths_length] at h1
        omega
    · rw [if_neg (by rw [hset]; omega), if_neg hone, rowLengths_set,
        List.length_dropLast]

/-- Witness for C8 at concrete inputs: the corner test at `(0, 0)` of
`tabC8` and the removal of the valid corner `(0, 2)`. -/
theorem extract_corner_rejection_witness :
    (extractFuel (4 + 1) tabC8 0 0 0 none = some (Except.error ()) ↔
      ¬((tabC8.getD 0 []).length = 0 + 1 ∧
        (0 + 1 < tabC8.length →
          (tabC8.getD (0 + 1) []).length < (tabC8.getD 0 []).length))) ∧
    rowLengths (removeCorner tabC8 2) =
      (if (tabC8.getD 2 []).length = 1 then (rowLengths tabC8).dropLast
       else (rowLengths tabC8).set 2 ((tabC8.getD 2 []).length - 1)) :=
  ⟨extract_corner_rejection.1 tabC8 0 0 0 4 (by decide) (by decide),
   extract_corner_rejection.2.2 tabC8 0 2 (by decide) (by decide) (by decide)
     (by decide)⟩

/-! ## The sRSK precondition check -/

/-- C9: the embedded `sRSK` returns the invalid-input error exactly when
the biword is not ordered or not restricted, for every fuel (in
particular the check precedes all insertion work, which is fuelled);
moreover the concrete biword `bwC9`, which repeats a biletter of odd
parity sum, fails `is_restricted` and makes `sRSK` raise at every
fuel. -/
theorem sRSK_error_iff :
    (∀ (fuel : Nat) (bw : List (List Int × List Int)),
      sRSKFuel fuel bw = some (Except.error ()) ↔
        ¬(isOrdered (toBL bw) = true ∧ isRestricted (toBL bw) = true)) ∧
    isRestricted (toBL bwC9) = false ∧
    (∀ fuel : Nat, sRSKFuel fuel bwC9 = some (Except.error ())) := by
  refine ⟨fun fuel bw => ?_, by decide, fun fuel => ?_⟩
  · simp only [sRSKFuel]
    by_cases hv : (!isOrdered (toBL bw) || !isRestricted (toBL bw)) = true
    · rw [if_pos hv]
      simp only [Bool.or_eq_true, Bool.not_eq_true'] at hv
      constructor
      · intro _ hc
        rcases hv with h | h
        · rw [hc.1] at h; cases h
        · rw [hc.2] at h; cases h
      · intro _; rfl
    · rw [if_neg hv]
      have hv' : isOrdered (toBL bw) = true ∧ isRestricted (toBL bw) = true := by
        have h1 := bool_false hv
        simp only [Bool.or_eq_false_iff, Bool.not_eq_false'] at h1
        exact h1
      constructor
      · intro h
        cases hgo : sRSKGo fuel [] [] (toBL bw) with
        | none => rw [hgo] at h; cases h
        | some r =>
          rw [hgo] at h
          exact Except.noConfusion (Option.some.inj h)
      · intro hc
        exact absurd hv' hc
  · simp only [sRSKFuel]
    rw [if_pos (by decide)]

/-! ## The implemented round trip is not the identity -/

/-- C1 (code bug): the biword `bwC1 = [([1],[1]), ([2],[-1]), ([2],[1])]`
is ordered and restricted, `sRSK` maps it to the pair `(pC1, qC1)`, but
the inverse returns its letters with the two top-`{2}` biletters in
swapped order: the maximal `Q`-cell `{2}` occurs both at the top row
(from the second letter) and at the end of row 0 (from the third,
most recently inserted letter), and the top-to-bottom scan picks the
top-row occurrence first, so `sRSK_inverse(sRSK(w)) ≠ w`. -/
theorem sRSK_roundtrip_counterexample :
    isOrdered (toBL bwC1) = true ∧ isRestricted (toBL bwC1) = true ∧
    sRSKFuel 20 bwC1 = some (Except.ok (pC1, qC1)) ∧
    sRSKInvGo 20 pC1 qC1 = some outC1 ∧
    ¬outC1 = toBL bwC1 := by decide
